import Mathlib

/-!
Verification development for the report_assistant chunking / embedding /
retrieval pipeline.  Text is modelled as `List Char` (Python strings are
sequences of code points, so indexing and `len` agree with list positions),
machine integers as `Int`/`Nat`, fallible code as `Except`.
-/

set_option maxRecDepth 8000

namespace ReportAssistant

/-! ## Strategy construction (pydantic models)

`chunking/strategies/ChunkStrategyFixedSize.py`, `ChunkStrategySentence.py`,
`ChunkStrategySentenceMetadata.py` declare plain pydantic fields and no
field validators; `data_classes.ChunkStrategy` declares validators for
`chunk_size` (positive) and `overlap` (non-negative) only. -/

structure ChunkStrategyFixedSize where
  embed_model : String
  chunk_size : Int
  overlap : Int
deriving DecidableEq

structure ChunkStrategySentence where
  embed_model : String
  chunk_size : Int
  overlap : Int
  max_chunk_chars : Option Int
deriving DecidableEq

structure ChunkStrategySentenceMetadata where
  embed_model : String
  chunk_size : Int
  overlap : Int
  max_chunk_size : Option Int
deriving DecidableEq

structure DCChunkStrategy where
  embed_model : String
  method : String
  chunk_size : Int
  overlap : Int
deriving DecidableEq

/-- Pydantic construction of `ChunkStrategyFixedSize`: the class declares no
field validators, so construction succeeds for any integer field values. -/
def mkChunkStrategyFixedSize (em : String) (cs ov : Int) :
    Except String ChunkStrategyFixedSize :=
  Except.ok ⟨em, cs, ov⟩

/-- Pydantic construction of `ChunkStrategySentence`: no field validators. -/
def mkChunkStrategySentence (em : String) (cs ov : Int) (mc : Option Int) :
    Except String ChunkStrategySentence :=
  Except.ok ⟨em, cs, ov, mc⟩

/-- Pydantic construction of `ChunkStrategySentenceMetadata`: no field
validators. -/
def mkChunkStrategySentenceMetadata (em : String) (cs ov : Int) (mc : Option Int) :
    Except String ChunkStrategySentenceMetadata :=
  Except.ok ⟨em, cs, ov, mc⟩

/-- Pydantic construction of `data_classes.ChunkStrategy`: validators
`chunk_size_positive` and `overlap_non_negative`; nothing relates `overlap`
to `chunk_size`. -/
def mkDCChunkStrategy (em method : String) (cs ov : Int) :
    Except String DCChunkStrategy :=
  if cs ≤ 0 then Except.error "chunk_size must be positive"
  else if ov < 0 then Except.error "overlap cannot be negative"
  else Except.ok ⟨em, method, cs, ov⟩

/-! ## Fixed-size chunking -/

/-- `ChunkStrategyFixedSize.create_chunks` / `algorithms.chunk_sequential`:

    start = 0
    while start < len(text):
        chunks.append(text[start:start + chunk_size])
        start += chunk_size - overlap

Each iteration reads the suffix of the text at the current `start`, so the
loop is modelled structurally on that suffix (`text[start:start+n]` is
`take n` of `drop start text`, and advancing `start` by `step` drops `step`
more characters).  When `overlap ≥ chunk_size` the Python loop never
terminates on non-empty text (the step is ≤ 0); the model returns `[]` on
that branch, and every theorem about it assumes `overlap < chunk_size`. -/
def chunkSequential (chunkSize overlap : Nat) (t : List Char) : List (List Char) :=
  if h : t = [] ∨ chunkSize ≤ overlap then []
  else t.take chunkSize :: chunkSequential chunkSize overlap (t.drop (chunkSize - overlap))
termination_by t.length
decreasing_by
  push_neg at h
  obtain ⟨ht, hov⟩ := h
  have h1 : 0 < t.length := List.length_pos.mpr ht
  simp only [List.length_drop]
  omega

/-- The reconstruction operation named by the spec: take the first `step`
(= `chunkSize - overlap`) characters of every chunk except the last, then
the last chunk in full. -/
def reconstructChunks (step : Nat) : List (List Char) → List Char
  | [] => []
  | [c] => c
  | c :: c2 :: rest => c.take step ++ reconstructChunks step (c2 :: rest)

/-! ## Sentence-window chunking

Sentence segmentation (spacy's sentencizer) is an external collaborator;
the model takes the already-segmented sentence list as input. -/

/-- Python `" ".join(parts)`. -/
def joinSpace : List String → String
  | [] => ""
  | [w] => w
  | w :: w2 :: rest => w ++ " " ++ joinSpace (w2 :: rest)

/-- The window loop shared by `algorithms.chunk_sentences` and
`ChunkStrategySentence.create_chunks`:

    for start in range(0, len(sents), step):
        window = sents[start : start + chunk_size]
        ... emit window ...
        if len(window) < chunk_size:
            break

`range` with step 0 raises `ValueError` in Python; the model returns `[]`
when `overlap ≥ chunk_size`, and theorems assume `overlap < chunk_size`. -/
def sentenceWindows (chunkSize overlap : Nat) (sents : List String) (start : Nat) :
    List (List String) :=
  if h : start < sents.length ∧ overlap < chunkSize then
    let w := (sents.drop start).take chunkSize
    if w.length < chunkSize then [w]
    else w :: sentenceWindows chunkSize overlap sents (start + (chunkSize - overlap))
  else []
termination_by sents.length - start
decreasing_by omega

/-- Python `chunk.split()`: split on whitespace runs, dropping empty pieces
(`Char.isWhitespace` stands in for Python's unicode whitespace class). -/
def pyWordsAux (cur : List Char) : List Char → List (List Char)
  | [] => if cur = [] then [] else [cur.reverse]
  | c :: rest =>
      if c.isWhitespace then
        (if cur = [] then [] else [cur.reverse]) ++ pyWordsAux [] rest
      else pyWordsAux (c :: cur) rest

/-- Python `chunk.split()` on a string. -/
def pySplit (s : String) : List String :=
  (pyWordsAux [] s.toList).map String.mk

/-- The accumulation loop inside `split_long_chunk`: walk the words,
keeping `cur` (Python `current`) and `curLen` (Python `current_len`,
the length the words of `cur` would have when joined with single spaces),
flushing `cur` when appending the next word would exceed `maxLen`:

    for word in words:
        if current and current_len + 1 + len(word) > max_len:
            parts.append(" ".join(current)); current = [word]; current_len = len(word)
        else:
            current_len = len(word) if not current else current_len + 1 + len(word)
            current.append(word)
    if current: parts.append(" ".join(current))

The model returns the groups of words; `split_long_chunk` joins them. -/
def greedyGroups (maxLen : Nat) (cur : List String) (curLen : Nat) :
    List String → List (List String)
  | [] => if cur = [] then [] else [cur]
  | w :: ws =>
      if cur ≠ [] ∧ maxLen < curLen + 1 + w.length then
        cur :: greedyGroups maxLen [w] w.length ws
      else
        greedyGroups maxLen (cur ++ [w])
          (if cur = [] then w.length else curLen + 1 + w.length) ws

/-- `split_long_chunk` from `ChunkStrategySentence.create_chunks`.  Python
treats both `None` and `0` as "no cap" (`if not max_len`). -/
def splitLongChunk (maxLen : Option Nat) (chunk : String) : List String :=
  match maxLen with
  | none => [chunk]
  | some m =>
      if m = 0 then [chunk]
      else if chunk.length ≤ m then [chunk]
      else (greedyGroups m [] 0 (pySplit chunk)).map joinSpace

/-- `ChunkStrategySentence.create_chunks`, given the sentence list produced
by the external sentence segmenter: join each window with single spaces,
then append every piece of `split_long_chunk` of the joined window. -/
def createChunksSentence (chunkSize overlap : Nat) (maxChunkChars : Option Nat)
    (sents : List String) : List String :=
  ((sentenceWindows chunkSize overlap sents 0).map
    (fun w => splitLongChunk maxChunkChars (joinSpace w))).flatten

/-- Split a list into consecutive groups of `n` (last group possibly
shorter).  Also models the upsert batching loop, which flushes every time
128 accumulated points are reached and once more at the end. -/
def chunksOf (n : Nat) (l : List α) : List (List α) :=
  match l with
  | [] => []
  | x :: xs =>
      if h : n = 0 then []
      else (x :: xs).take n :: chunksOf n ((x :: xs).drop n)
termination_by l.length
decreasing_by
  simp only [List.length_drop, List.length_cons]
  omega

/-- Join with a separator (Python `sep.join(parts)`). -/
def joinWith (sep : String) : List String → String
  | [] => ""
  | [w] => w
  | w :: w2 :: rest => w ++ sep ++ joinWith sep (w2 :: rest)

/-! ## Sentence-window-with-metadata chunking
(`ChunkStrategySentenceMetadata.create_chunks`)

The block splitting, heading detection (`SECTION_RE`/`SUBSECTION_RE`) and
sentence segmentation (spacy) form the extraction phase, whose output —
sentences tagged with the most recently seen section/subsection — the
model takes as input, like the sentence list of the plain Sentence
strategy. -/

/-- One entry of `sentences_with_meta`: the normalized sentence text and
the section/subsection headings in force when it was read. -/
structure SentWithMeta where
  text : String
  sec : Option String
  subsec : Option String
deriving DecidableEq

/-- The window loop of `ChunkStrategySentenceMetadata.create_chunks`:

    for start in range(0, len(sentences_with_meta), step):
        window = sentences_with_meta[start : start + chunk_size]
        if not window: break
        body = " ".join(sent for sent, _, _ in window)
        _, sec, subsec = window[0]
        ... prefix parts from truthy sec/subsec, joined with " | " ...
        if self.max_chunk_size and len(chunk_text) > self.max_chunk_size:
            ... fixed-size character slices ...
        else: chunks.append(chunk_text)
        if len(window) < chunk_size: break

Python truthiness makes `if sec:` skip both `None` and the empty string,
and `if self.max_chunk_size` treats `None` and `0` as "no cap".  As with
`sentenceWindows`, `range` with step 0 raises in Python; the model returns
`[]` when `overlap ≥ chunk_size`. -/
def metaWindowLoop (chunkSize overlap : Nat) (maxChunkSize : Option Nat)
    (sents : List SentWithMeta) (start : Nat) : List String :=
  if h : start < sents.length ∧ overlap < chunkSize then
    let w := (sents.drop start).take chunkSize
    if w = [] then []
    else
      let body := joinSpace (w.map fun s => s.text)
      let first := w.headD ⟨"", none, none⟩
      let secPart : List String :=
        match first.sec with
        | some s => if s = "" then [] else ["Section: " ++ s]
        | none => []
      let subPart : List String :=
        match first.subsec with
        | some s => if s = "" then [] else ["Subsection: " ++ s]
        | none => []
      let headParts := secPart ++ subPart
      let chunkText :=
        if headParts = [] then body else joinWith " | " headParts ++ "\n" ++ body
      let pieces :=
        match maxChunkSize with
        | some m =>
            if m ≠ 0 ∧ m < chunkText.length
            then (chunksOf m chunkText.toList).map String.mk
            else [chunkText]
        | none => [chunkText]
      pieces ++
        (if w.length < chunkSize then []
         else metaWindowLoop chunkSize overlap maxChunkSize sents
          (start + (chunkSize - overlap)))
  else []
termination_by sents.length - start
decreasing_by omega

/-- `ChunkStrategySentenceMetadata.create_chunks`, given the extraction
phase's output: `if not text: return []` first, then
`if not sentences_with_meta: return []`, then the window loop. -/
def createChunksSentenceMetadata (chunkSize overlap : Nat) (maxChunkSize : Option Nat)
    (text : String) (sentsWithMeta : List SentWithMeta) : List String :=
  if text = "" then []
  else if sentsWithMeta = [] then []
  else metaWindowLoop chunkSize overlap maxChunkSize sentsWithMeta 0

/-! ## Collection-name slugifier (`utils.slugify_name` /
`embed.slugify_collection_name`) -/

/-- Python `s.strip()`: drop leading and trailing whitespace. -/
def pyStrip (l : List Char) : List Char :=
  ((l.dropWhile Char.isWhitespace).reverse.dropWhile Char.isWhitespace).reverse

/-- One character of `re.sub(r"\s+", "_", s)`: a whitespace run becomes a
single underscore.  `prevWs` records whether the previous character was
part of a whitespace run. -/
def collapseWsAux (prevWs : Bool) : List Char → List Char
  | [] => []
  | c :: rest =>
      if c.isWhitespace then
        (if prevWs then [] else ['_']) ++ collapseWsAux true rest
      else c :: collapseWsAux false rest

/-- `re.sub(r"\s+", "_", s)`. -/
def collapseWs (l : List Char) : List Char := collapseWsAux false l

/-- The character class kept by `re.sub(r"[^a-z0-9_\-]", "", s)`. -/
def isAllowedSlugChar (c : Char) : Bool :=
  ('a' ≤ c && c ≤ 'z') || ('0' ≤ c && c ≤ '9') || c = '_' || c = '-'

/-- The sanitization pipeline of `slugify_name`: strip, lowercase
(`Char.toLower` stands in for Python's `str.lower`), collapse whitespace
runs to `_`, drop characters outside `[a-z0-9_-]`. -/
def sanitizeCompany (company : String) : List Char :=
  (collapseWs ((pyStrip company.toList).map Char.toLower)).filter isAllowedSlugChar

/-- `utils.slugify_name` (identical to `embed.slugify_collection_name`). -/
def slugifyName (company : String) : Except String String :=
  let s := sanitizeCompany company
  if s = [] then Except.error "Company name became empty after sanitization."
  else Except.ok ("company__" ++ String.mk s)

/-! ## SHA-256 (`hashlib.sha256(...).hexdigest()`)

A direct implementation of FIPS 180-4 over byte lists, 32-bit words as
`Nat` reduced with `% 2 ^ 32`. -/

/-- Rotate a 32-bit word (a `Nat` below `2 ^ 32`) right by `n`. -/
def rotr32 (n x : Nat) : Nat :=
  ((x >>> n) ||| (x <<< (32 - n))) % 2 ^ 32

/-- SHA-256 round constants. -/
def sha256K : List Nat :=
  [1116352408, 1899447441, 3049323471, 3921009573, 961987163,
   1508970993, 2453635748, 2870763221, 3624381080, 310598401,
   607225278, 1426881987, 1925078388, 2162078206, 2614888103,
   3248222580, 3835390401, 4022224774, 264347078, 604807628,
   770255983, 1249150122, 1555081692, 1996064986, 2554220882,
   2821834349, 2952996808, 3210313671, 3336571891, 3584528711,
   113926993, 338241895, 666307205, 773529912, 1294757372,
   1396182291, 1695183700, 1986661051, 2177026350, 2456956037,
   2730485921, 2820302411, 3259730800, 3345764771, 3516065817,
   3600352804, 4094571909, 275423344, 430227734, 506948616,
   659060556, 883997877, 958139571, 1322822218, 1537002063,
   1747873779, 1955562222, 2024104815, 2227730452, 2361852424,
   2428436474, 2756734187, 3204031479, 3329325298]

/-- SHA-256 initial hash state. -/
def sha256H0 : List Nat :=
  [1779033703, 3144134277, 1013904242, 2773480762,
   1359893119, 2600822924, 528734635, 1541459225]

/-- Big-endian 4-byte groups to 32-bit words. -/
def bytesToWords : List Nat → List Nat
  | b0 :: b1 :: b2 :: b3 :: rest =>
      (((b0 * 256 + b1) * 256 + b2) * 256 + b3) :: bytesToWords rest
  | _ => []

/-- SHA-256 padding: append `0x80`, zeros to 56 mod 64 bytes, then the
bit length as 8 big-endian bytes. -/
def sha256Pad (msg : List Nat) : List Nat :=
  let zeros := (119 - msg.length % 64) % 64
  msg ++ (0x80 :: List.replicate zeros 0) ++
    ([56, 48, 40, 32, 24, 16, 8, 0].map fun s => ((msg.length * 8) >>> s) % 256)

/-- Message-schedule extension: repeatedly append
`σ1(w[t-2]) + w[t-7] + σ0(w[t-15]) + w[t-16] (mod 2^32)`. -/
def sha256Extend : Nat → List Nat → List Nat
  | 0, w => w
  | n + 1, w =>
      let len := w.length
      let g := fun i => w.getD (len - i) 0
      let s0 := rotr32 7 (g 15) ^^^ rotr32 18 (g 15) ^^^ (g 15 >>> 3)
      let s1 := rotr32 17 (g 2) ^^^ rotr32 19 (g 2) ^^^ (g 2 >>> 10)
      sha256Extend n (w ++ [(s1 + g 7 + s0 + g 16) % 2 ^ 32])

/-- One compression round; the state is the list `[a,b,c,d,e,f,g,h]`. -/
def sha256Round (st : List Nat) (kw : Nat × Nat) : List Nat :=
  let a := st.getD 0 0
  let b := st.getD 1 0
  let c := st.getD 2 0
  let d := st.getD 3 0
  let e := st.getD 4 0
  let f := st.getD 5 0
  let g := st.getD 6 0
  let h := st.getD 7 0
  let S1 := rotr32 6 e ^^^ rotr32 11 e ^^^ rotr32 25 e
  let ch := (e &&& f) ^^^ ((e ^^^ 0xffffffff) &&& g)
  let t1 := (h + S1 + ch + kw.1 + kw.2) % 2 ^ 32
  let S0 := rotr32 2 a ^^^ rotr32 13 a ^^^ rotr32 22 a
  let maj := (a &&& b) ^^^ (a &&& c) ^^^ (b &&& c)
  let t2 := (S0 + maj) % 2 ^ 32
  [(t1 + t2) % 2 ^ 32, a, b, c, (d + t1) % 2 ^ 32, e, f, g]

/-- Compress one 16-word block into the running hash state. -/
def sha256Block (st : List Nat) (block : List Nat) : List Nat :=
  let w := sha256Extend 48 block
  let out := (sha256K.zip w).foldl sha256Round st
  (st.zip out).map fun p => (p.1 + p.2) % 2 ^ 32

/-- SHA-256 of a byte list, as 32 bytes. -/
def sha256Bytes (msg : List Nat) : List Nat :=
  let blocks := chunksOf 16 (bytesToWords (sha256Pad msg))
  let final := blocks.foldl sha256Block sha256H0
  final.flatMap fun wd => [24, 16, 8, 0].map fun s => (wd >>> s) % 256

/-- UTF-8 encoding of one character (Python `str.encode("utf-8")`). -/
def utf8EncodeCharNat (c : Char) : List Nat :=
  let n := c.toNat
  if n < 0x80 then [n]
  else if n < 0x800 then [0xc0 + n / 64, 0x80 + n % 64]
  else if n < 0x10000 then [0xe0 + n / 4096, 0x80 + n / 64 % 64, 0x80 + n % 64]
  else [0xf0 + n / 262144, 0x80 + n / 4096 % 64, 0x80 + n / 64 % 64, 0x80 + n % 64]

/-- UTF-8 bytes of a string. -/
def utf8Bytes (s : String) : List Nat :=
  s.toList.flatMap utf8EncodeCharNat

/-- Lowercase hex digit. -/
def hexDigit (n : Nat) : Char :=
  if n < 10 then Char.ofNat (48 + n) else Char.ofNat (87 + n)

/-- `hashlib.sha256(s.encode("utf-8")).hexdigest()`. -/
def sha256Hex (s : String) : String :=
  String.mk ((sha256Bytes (utf8Bytes s)).flatMap fun b => [hexDigit (b / 16), hexDigit (b % 16)])

/-! ## Strategy serialization and hashes -/

/-- A loaded JSON scalar, as found in the `strategy` dict of a chunks
file (`chunk_strategy` in `embed.py`). -/
inductive PyVal where
  | str (s : String)
  | int (n : Int)
deriving DecidableEq

/-- JSON string escaping for the characters that can occur in strategy
keys and values (quote and backslash; other escapes elided). -/
def jsonEscapeChar (c : Char) : List Char :=
  if c = '"' then ['\\', '"']
  else if c = '\\' then ['\\', '\\']
  else [c]

/-- A JSON string literal. -/
def jsonQuote (s : String) : String :=
  String.mk ('"' :: s.toList.flatMap jsonEscapeChar ++ ['"'])

/-- JSON dump of a scalar. -/
def dumpPyVal : PyVal → String
  | PyVal.str s => jsonQuote s
  | PyVal.int n => toString n

/-- Insert one key/value pair into a key-sorted list (Python `sorted` on
`dict.items()` orders by the unique keys). -/
def insertByKey (kv : String × PyVal) : List (String × PyVal) → List (String × PyVal)
  | [] => [kv]
  | p :: rest => if kv.1 ≤ p.1 then kv :: p :: rest else p :: insertByKey kv rest

/-- Sort items by key. -/
def sortByKey (items : List (String × PyVal)) : List (String × PyVal) :=
  items.foldr insertByKey []

/-- `json.dumps(sorted(chunk_strategy.items()), sort_keys=True)` — the exact
string hashed by `embed.check_and_handle_existing_points` and
`embed.upsert_to_company_collection`: a JSON array of `[key, value]`
arrays with Python's default `", "`/`": "` separators.  Note the chunk
texts do not appear anywhere in this serialization. -/
def dumpSortedItems (items : List (String × PyVal)) : String :=
  "[" ++ joinWith ", " ((sortByKey items).map fun kv =>
    "[" ++ jsonQuote kv.1 ++ ", " ++ dumpPyVal kv.2 ++ "]") ++ "]"

/-- The `strategy_hash` computed in `embed.py` (both in
`check_and_handle_existing_points` and in `upsert_to_company_collection`):
SHA-256 over the serialized, key-sorted strategy items only. -/
def upsertStrategyHash (items : List (String × PyVal)) : String :=
  sha256Hex (dumpSortedItems items)

/-- `ChunkFile.strategy_hash` serialization
(`data_classes.py`): `json.dumps({"strategy": ..., "chunks": ...},
sort_keys=True, separators=(",", ":"), ensure_ascii=False)`; top-level keys
sorted (`"chunks" < "strategy"`), strategy keys sorted, no whitespace. -/
def chunkFileHashInput (items : List (String × PyVal)) (chunks : List String) : String :=
  "\x7b\"chunks\":[" ++ joinWith "," (chunks.map jsonQuote) ++ "],\"strategy\":\x7b" ++
    joinWith "," ((sortByKey items).map fun kv => jsonQuote kv.1 ++ ":" ++ dumpPyVal kv.2) ++
    "\x7d\x7d"

/-- `ChunkFile.strategy_hash`: SHA-256 over strategy parameters *and*
chunk texts. -/
def chunkFileStrategyHash (items : List (String × PyVal)) (chunks : List String) : String :=
  sha256Hex (chunkFileHashInput items chunks)

/-! ## Upsert (`embed.upsert_to_company_collection`) -/

/-- One Qdrant point as built by the upsert loop: the payload copies the
strategy dict, adds `company`, `strategy_hash`, `chunk_idx`, `text`, and
carries the vector (`α`; the numeric content is never inspected).  The
random `uuid4` point id is not modelled. -/
structure VectorRecord (α : Type) where
  strategy : List (String × PyVal)
  company : String
  strategy_hash : String
  chunk_idx : Nat
  text : String
  vector : α
deriving DecidableEq

/-- The record-building loop `for i, (chunk_text, vec) in
enumerate(zip(chunks, vectors))`, starting at index `i`. -/
def mkRecords (items : List (String × PyVal)) (company : String) (hash : String) :
    Nat → List (String × α) → List (VectorRecord α)
  | _, [] => []
  | i, (c, v) :: rest =>
      ⟨items, company, hash, i, c, v⟩ :: mkRecords items company hash (i + 1) rest

/-- `embed.upsert_to_company_collection`: raise when the chunk and vector
counts differ; otherwise build one record per chunk and send them in
batches of 128 (the result lists the `client.upsert` calls in order). -/
def upsertToCompanyCollection (items : List (String × PyVal)) (company : String)
    (chunks : List String) (vectors : List α) :
    Except String (List (List (VectorRecord α))) :=
  if chunks.length ≠ vectors.length then
    Except.error "Chunks count does not match vectors count."
  else
    Except.ok (chunksOf 128
      (mkRecords items company (upsertStrategyHash items) 0 (chunks.zip vectors)))

/-! ## Purge confirmation flow (`embed.check_and_handle_existing_points`
and `embed.main`) -/

/-- Count of points whose `strategy_hash` payload equals `h`
(`client.count` with the exact-match filter). -/
def countByHash (store : List (VectorRecord α)) (h : String) : Nat :=
  (store.filter fun r => r.strategy_hash == h).length

/-- `embed.check_and_handle_existing_points`, with the vector store as an
explicit record list and the interactive answer as an input.  Returns the
store after the call and the boolean the function returns.  The user's
answer is normalized exactly as the source does: `.strip().lower()`. -/
def checkAndHandleExistingPoints (store : List (VectorRecord α)) (h : String)
    (response : String) : List (VectorRecord α) × Bool :=
  if countByHash store h = 0 then (store, true)
  else if String.mk ((pyStrip response.toList).map Char.toLower) = "yes" then
    (store.filter fun r => !(r.strategy_hash == h), true)
  else (store, false)

/-- The tail of `embed.main`: run the confirmation gate; embed and upsert
(appending `newRecords` to the store) only when it returned `True`.  The
returned boolean records whether embedding/upsert ran. -/
def embedMain (store : List (VectorRecord α)) (h : String) (response : String)
    (newRecords : List (VectorRecord α)) : List (VectorRecord α) × Bool :=
  let out := checkAndHandleExistingPoints store h response
  if out.2 then (out.1 ++ newRecords, true) else (out.1, false)

/-! ## Retrieval (`llm.retrieve_top_k_from_qdrant`) -/

/-- One hit of the Qdrant search response (`with_payload=["text"]`). -/
structure SearchHit where
  text : String
deriving DecidableEq

/-- `llm.retrieve_top_k_from_qdrant`, as a function of the HTTP response it
receives from `POST /collections/{name}/points/search`: `raise_for_status`
raises for any status ≥ 400 (Qdrant answers 404 for a missing collection),
otherwise the hits' text payloads are returned in response order (the
store orders them by descending similarity). -/
def retrieveTopK (status : Nat) (result : List SearchHit) : Except String (List String) :=
  if 400 ≤ status then Except.error "HTTPError"
  else Except.ok (result.map fun hit => hit.text)

/-! ## Basic lemmas about the chunking loops -/

theorem chunkSequential_nil (cs ov : Nat) : chunkSequential cs ov [] = [] := by
  rw [chunkSequential]
  simp

theorem chunkSequential_eq_nil_iff (cs ov : Nat) (hov : ov < cs) (t : List Char) :
    chunkSequential cs ov t = [] ↔ t = [] := by
  constructor
  · intro h
    by_contra ht
    rw [chunkSequential, dif_neg (by push_neg; exact ⟨ht, by omega⟩)] at h
    simp at h
  · intro h
    subst h
    exact chunkSequential_nil cs ov

theorem reconstruct_chunkSequential_aux (cs ov : Nat) (hcs : 0 < cs) (hov : ov < cs) :
    ∀ n (t : List Char), t.length ≤ n →
      reconstructChunks (cs - ov) (chunkSequential cs ov t) = t := by
  intro n
  induction n with
  | zero =>
      intro t ht
      have hnil : t = [] := by
        cases t with
        | nil => rfl
        | cons a l => simp at ht
      subst hnil
      simp [chunkSequential_nil, reconstructChunks]
  | succ n ih =>
      intro t ht
      by_cases htnil : t = []
      · subst htnil
        simp [chunkSequential_nil, reconstructChunks]
      · rw [chunkSequential, dif_neg (by push_neg; exact ⟨htnil, by omega⟩)]
        have hlen : 0 < t.length := List.length_pos.mpr htnil
        have hdroplen : (t.drop (cs - ov)).length ≤ n := by
          simp only [List.length_drop]
          omega
        by_cases hrest : t.drop (cs - ov) = []
        · rw [hrest, chunkSequential_nil]
          simp only [reconstructChunks]
          have hle : t.length ≤ cs - ov := by
            have := List.drop_eq_nil_iff.mp hrest
            omega
          exact List.take_of_length_le (le_trans hle (by omega))
        · have hrestchunks : chunkSequential cs ov (t.drop (cs - ov)) ≠ [] :=
            fun hcontra => hrest ((chunkSequential_eq_nil_iff cs ov hov _).mp hcontra)
          obtain ⟨c2, rest2, hEq⟩ := List.exists_cons_of_ne_nil hrestchunks
          rw [hEq]
          simp only [reconstructChunks]
          rw [← hEq, ih _ hdroplen, List.take_take]
          have hmin : min (cs - ov) cs = cs - ov := by omega
          rw [hmin, List.take_append_drop]

/-! ## Claim theorems (construction, fixed-size chunking, slugifier) -/

/-- Claim C1 (code-bug evidence): a strategy with `overlap = chunk_size`
passes construction in every variant — the three strategy classes declare
no field validators at all, and `data_classes.ChunkStrategy` checks only
`chunk_size > 0` and `overlap ≥ 0` — although the spec requires
`overlap < chunkSize` to be enforced at construction (the fixed-size
`create_chunks` loop then never terminates, since its step is 0). -/
theorem construction_accepts_overlap_eq_chunk_size :
    mkChunkStrategyFixedSize "m" 2 2 = Except.ok ⟨"m", 2, 2⟩ ∧
    mkChunkStrategySentence "m" 2 2 (some 2500) = Except.ok ⟨"m", 2, 2, some 2500⟩ ∧
    mkChunkStrategySentenceMetadata "m" 2 2 (some 2000) = Except.ok ⟨"m", 2, 2, some 2000⟩ ∧
    mkDCChunkStrategy "m" "fixed_size" 2 2 = Except.ok ⟨"m", "fixed_size", 2, 2⟩ := by
  refine ⟨rfl, rfl, rfl, ?_⟩
  rfl

/-- Claim C2: for every valid FixedSize strategy (`0 < chunkSize`,
`overlap < chunkSize`) and every text, concatenating the first
`chunkSize - overlap` characters of each chunk except the last, followed
by the last chunk in full, reconstructs the input text exactly. -/
theorem fixedSize_round_trip (cs ov : Nat) (t : List Char)
    (hcs : 0 < cs) (hov : ov < cs) :
    reconstructChunks (cs - ov) (chunkSequential cs ov t) = t :=
  reconstruct_chunkSequential_aux cs ov hcs hov t.length t le_rfl

/-- Witness for C2, on the spec's own scenario (chunkSize 10, overlap 4,
a 23-character text). -/
theorem fixedSize_round_trip_witness :
    0 < 10 ∧ 4 < 10 ∧
    reconstructChunks 6 (chunkSequential 10 4 "abcdefghijklmnopqrstuvw".toList) =
      "abcdefghijklmnopqrstuvw".toList :=
  ⟨by decide, by decide,
    fixedSize_round_trip 10 4 "abcdefghijklmnopqrstuvw".toList (by decide) (by decide)⟩

/-- Claim C5 counterexample: the FixedSize strategy (chunkSize 5,
overlap 0) applied to the whitespace-only text `" "` returns the one-chunk
sequence `[" "]`, not the empty sequence the claim requires. -/
theorem fixedSize_whitespace_counterexample :
    chunkSequential 5 0 [' '] = [[' ']] ∧ chunkSequential 5 0 [' '] ≠ [] := by
  constructor
  · rw [chunkSequential]
    simp [chunkSequential_nil]
  · rw [chunkSequential]
    simp

/-- Claim C5 (amended): for valid parameters `createChunks` is total and
returns the empty sequence exactly on empty input — FixedSize returns a
non-empty chunk sequence on any non-empty input, whitespace-only included;
the sentence strategy returns no chunks when segmentation yields no
sentences, and the metadata variant returns no chunks on empty text
(its `if not text` guard) and whenever extraction yields no sentences. -/
theorem createChunks_empty_iff (cs ov : Nat) (hcs : 0 < cs) (hov : ov < cs) :
    (∀ t : List Char, chunkSequential cs ov t = [] ↔ t = []) ∧
    (∀ m, createChunksSentence cs ov m [] = []) ∧
    (∀ m sents, createChunksSentenceMetadata cs ov m "" sents = []) ∧
    (∀ m t, createChunksSentenceMetadata cs ov m t [] = []) := by
  refine ⟨chunkSequential_eq_nil_iff cs ov hov, ?_, ?_, ?_⟩
  · intro m
    unfold createChunksSentence
    rw [sentenceWindows]
    simp
  · intro m sents
    unfold createChunksSentenceMetadata
    simp
  · intro m t
    unfold createChunksSentenceMetadata
    by_cases h : t = "" <;> simp [h]

/-- Witness for the amended C5, exercising all three variants. -/
theorem createChunks_empty_iff_witness :
    0 < 5 ∧ 0 < 5 ∧ (chunkSequential 5 0 [] = [] ↔ ([] : List Char) = []) ∧
    createChunksSentence 5 0 (some 2500) [] = [] ∧
    createChunksSentenceMetadata 5 0 (some 2000) "" [⟨"s", none, none⟩] = [] ∧
    createChunksSentenceMetadata 5 0 (some 2000) "x" [] = [] :=
  ⟨by decide, by decide,
   (createChunks_empty_iff 5 0 (by decide) (by decide)).1 [],
   (createChunks_empty_iff 5 0 (by decide) (by decide)).2.1 (some 2500),
   (createChunks_empty_iff 5 0 (by decide) (by decide)).2.2.1 (some 2000) [⟨"s", none, none⟩],
   (createChunks_empty_iff 5 0 (by decide) (by decide)).2.2.2 (some 2000) "x"⟩

/-- Claim C10: the collection-name slugifier raises exactly when the
sanitized company name is empty, and otherwise returns `company__`
followed by a non-empty string drawn from `[a-z0-9_-]` — never the bare
prefix alone. -/
theorem slugifyName_spec (company : String) :
    (slugifyName company = Except.error "Company name became empty after sanitization."
      ↔ sanitizeCompany company = []) ∧
    (sanitizeCompany company ≠ [] →
      slugifyName company = Except.ok ("company__" ++ String.mk (sanitizeCompany company)) ∧
      String.mk (sanitizeCompany company) ≠ "" ∧
      ∀ c ∈ sanitizeCompany company, isAllowedSlugChar c = true) := by
  constructor
  · unfold slugifyName
    by_cases h : sanitizeCompany company = []
    · simp [h]
    · simp [h]
  · intro h
    refine ⟨by unfold slugifyName; simp [h], ?_, ?_⟩
    · intro hc
      apply h
      simpa using congrArg String.data hc
    · intro c hc
      exact List.of_mem_filter hc

/-- Witness for C10, at the company name `"Acme Corp"`. -/
theorem slugifyName_spec_witness :
    slugifyName "Acme Corp" =
      Except.ok ("company__" ++ String.mk (sanitizeCompany "Acme Corp")) ∧
    String.mk (sanitizeCompany "Acme Corp") ≠ "" ∧
    ∀ c ∈ sanitizeCompany "Acme Corp", isAllowedSlugChar c = true :=
  (slugifyName_spec "Acme Corp").2 (by decide)

/-! ## Sentence-window theorems (C4, C6) -/

/-- Claim C4 counterexample: SentenceWindow with chunkSize 3 and overlap 1
over seven sentences (default `max_chunk_chars` 2500) emits FOUR chunks —
after the window of sentences 4–6, whose length equals chunkSize, the loop
slides once more and emits the single-sentence window [6] — where the
claim requires exactly three chunks and no further chunk. -/
theorem sentenceWindow_seven_counterexample :
    createChunksSentence 3 1 (some 2500) ["S0.", "S1.", "S2.", "S3.", "S4.", "S5.", "S6."] =
      ["S0. S1. S2.", "S2. S3. S4.", "S4. S5. S6.", "S6."] ∧
    (createChunksSentence 3 1 (some 2500)
      ["S0.", "S1.", "S2.", "S3.", "S4.", "S5.", "S6."]).length ≠ 3 := by
  have hw : sentenceWindows 3 1 ["S0.", "S1.", "S2.", "S3.", "S4.", "S5.", "S6."] 0 =
      [["S0.", "S1.", "S2."], ["S2.", "S3.", "S4."], ["S4.", "S5.", "S6."], ["S6."]] := by
    simp [sentenceWindows]
  constructor
  · unfold createChunksSentence
    rw [hw]
    decide
  · unfold createChunksSentence
    rw [hw]
    decide

/-- Claim C4 (amended): for any seven sentences, SentenceWindow with
chunkSize 3 and overlap 1 produces the windows [0,1,2], [2,3,4], [4,5,6]
and then one more window [6] — four chunks, because the loop stops only
after emitting a window strictly shorter than chunkSize. -/
theorem sentenceWindow_seven_amended (s0 s1 s2 s3 s4 s5 s6 : String) :
    sentenceWindows 3 1 [s0, s1, s2, s3, s4, s5, s6] 0 =
      [[s0, s1, s2], [s2, s3, s4], [s4, s5, s6], [s6]] ∧
    createChunksSentence 3 1 none [s0, s1, s2, s3, s4, s5, s6] =
      [joinSpace [s0, s1, s2], joinSpace [s2, s3, s4], joinSpace [s4, s5, s6], s6] := by
  constructor
  · simp [sentenceWindows]
  · simp [createChunksSentence, sentenceWindows, splitLongChunk, joinSpace]

theorem joinSpace_append_singleton (cur : List String) (w : String) (h : cur ≠ []) :
    (joinSpace (cur ++ [w])).length = (joinSpace cur).length + 1 + w.length := by
  induction cur with
  | nil => contradiction
  | cons a rest ih =>
      cases rest with
      | nil =>
          have hsp : (" " : String).length = 1 := rfl
          simp only [List.cons_append, List.nil_append, joinSpace, String.length_append]
          omega
      | cons b rest2 =>
          have h2 : (b :: rest2 : List String) ≠ [] := by simp
          have ih2 := ih h2
          have hsp : (" " : String).length = 1 := rfl
          simp only [List.cons_append] at ih2 ⊢
          simp only [joinSpace, String.length_append]
          omega

theorem greedyGroups_flatten (m : Nat) :
    ∀ (ws : List String) (cur : List String) (curLen : Nat),
      (greedyGroups m cur curLen ws).flatten = cur ++ ws := by
  intro ws
  induction ws with
  | nil =>
      intro cur curLen
      by_cases h : cur = [] <;> simp [greedyGroups, h]
  | cons w ws ih =>
      intro cur curLen
      rw [greedyGroups]
      by_cases h : cur ≠ [] ∧ m < curLen + 1 + w.length
      · rw [if_pos h]
        simp [ih]
      · rw [if_neg h]
        rw [ih]
        simp

theorem greedyGroups_bound (m : Nat) :
    ∀ (ws : List String) (cur : List String) (curLen : Nat),
      (∀ w ∈ ws, w.length ≤ m) →
      curLen = (joinSpace cur).length →
      curLen ≤ m →
      ∀ g ∈ greedyGroups m cur curLen ws, (joinSpace g).length ≤ m := by
  intro ws
  induction ws with
  | nil =>
      intro cur curLen hws hlen hbound g hg
      rw [greedyGroups] at hg
      by_cases h : cur = []
      · simp [h] at hg
      · rw [if_neg h] at hg
        simp at hg
        subst hg
        omega
  | cons w ws ih =>
      intro cur curLen hws hlen hbound g hg
      have hwlen : w.length ≤ m := hws w (List.mem_cons_self w ws)
      have hws' : ∀ w' ∈ ws, w'.length ≤ m := fun w' hw' => hws w' (List.mem_cons_of_mem w hw')
      rw [greedyGroups] at hg
      by_cases h : cur ≠ [] ∧ m < curLen + 1 + w.length
      · rw [if_pos h] at hg
        rcases List.mem_cons.mp hg with hg | hg
        · subst hg
          omega
        · exact ih [w] w.length hws' (by simp [joinSpace]) hwlen g hg
      · rw [if_neg h] at hg
        by_cases hcur : cur = []
        · subst hcur
          simp only [if_pos rfl, List.nil_append] at hg
          exact ih [w] w.length hws' (by simp [joinSpace]) hwlen g hg
        · push_neg at h
          have hfit : curLen + 1 + w.length ≤ m := h hcur
          rw [if_neg hcur] at hg
          exact ih (cur ++ [w]) (curLen + 1 + w.length) hws'
            (by rw [joinSpace_append_singleton cur w hcur]; omega)
            hfit g hg

/-- Claim C6 counterexample: with `max_chunk_chars = 3`, the window chunk
`"abcde x"` (7 characters) is split into the pieces `["abcde", "x"]`, and
the piece `"abcde"` has length 5 > 3 — a single word longer than the cap
is emitted as an over-long piece, so not every returned piece is within
`maxChunkChars`. -/
theorem splitLongChunk_counterexample :
    createChunksSentence 1 0 (some 3) ["abcde x"] = ["abcde", "x"] ∧
    ¬ ((createChunksSentence 1 0 (some 3) ["abcde x"]).all fun p => p.length ≤ 3) := by
  have hw : sentenceWindows 1 0 ["abcde x"] 0 = [["abcde x"]] := by
    simp [sentenceWindows]
  constructor
  · unfold createChunksSentence
    rw [hw]
    decide
  · unfold createChunksSentence
    rw [hw]
    decide

/-- Claim C6 (amended): when `maxChunkChars = m > 0` is set and the chunk
exceeds it, `split_long_chunk` splits on whitespace into word-greedy
pieces; the groups concatenate back to exactly the chunk's word list (no
word is ever divided across pieces), and provided every individual word
fits in `m`, every returned piece has length at most `m` — a single word
longer than `m` becomes its own over-long piece. -/
theorem splitLongChunk_spec (m : Nat) (chunk : String)
    (hm : 0 < m) (hlong : m < chunk.length) :
    splitLongChunk (some m) chunk = (greedyGroups m [] 0 (pySplit chunk)).map joinSpace ∧
    (greedyGroups m [] 0 (pySplit chunk)).flatten = pySplit chunk ∧
    ((∀ w ∈ pySplit chunk, w.length ≤ m) →
      ∀ p ∈ splitLongChunk (some m) chunk, p.length ≤ m) := by
  have hdef : splitLongChunk (some m) chunk =
      (greedyGroups m [] 0 (pySplit chunk)).map joinSpace := by
    simp only [splitLongChunk]
    rw [if_neg (by omega), if_neg (by omega)]
  refine ⟨hdef, greedyGroups_flatten m _ [] 0, ?_⟩
  intro hws p hp
  rw [hdef] at hp
  obtain ⟨g, hg, rfl⟩ := List.mem_map.mp hp
  exact greedyGroups_bound m _ [] 0 hws (by simp [joinSpace]) (by omega) g hg

/-- Witness for the amended C6, at `max_chunk_chars = 5` and the chunk
`"abc de fgh"`. -/
theorem splitLongChunk_spec_witness :
    splitLongChunk (some 5) "abc de fgh" =
      (greedyGroups 5 [] 0 (pySplit "abc de fgh")).map joinSpace ∧
    (greedyGroups 5 [] 0 (pySplit "abc de fgh")).flatten = pySplit "abc de fgh" ∧
    ∀ p ∈ splitLongChunk (some 5) "abc de fgh", p.length ≤ 5 := by
  have h := splitLongChunk_spec 5 "abc de fgh" (by decide) (by decide)
  exact ⟨h.1, h.2.1, h.2.2 (by decide)⟩

/-! ## Upsert batching and payload lemmas (C3, C7) -/

theorem chunksOf_flatten_aux (n : Nat) (hn : n ≠ 0) :
    ∀ (N : Nat) (l : List α), l.length ≤ N → (chunksOf n l).flatten = l := by
  intro N
  induction N with
  | zero =>
      intro l hl
      cases l with
      | nil => simp [chunksOf]
      | cons x xs => simp at hl
  | succ N ih =>
      intro l hl
      cases l with
      | nil => simp [chunksOf]
      | cons x xs =>
          rw [chunksOf, dif_neg hn]
          simp only [List.flatten_cons]
          rw [ih ((x :: xs).drop n) (by simp only [List.length_drop]; simp at hl ⊢; omega)]
          exact List.take_append_drop n (x :: xs)

theorem chunksOf_flatten (n : Nat) (hn : n ≠ 0) (l : List α) :
    (chunksOf n l).flatten = l :=
  chunksOf_flatten_aux n hn l.length l le_rfl

theorem mem_chunksOf_aux (n : Nat) :
    ∀ (N : Nat) (l : List α), l.length ≤ N → ∀ b ∈ chunksOf n l, b.length ≤ n := by
  intro N
  induction N with
  | zero =>
      intro l hl b hb
      cases l with
      | nil => simp [chunksOf] at hb
      | cons x xs => simp at hl
  | succ N ih =>
      intro l hl b hb
      cases l with
      | nil => simp [chunksOf] at hb
      | cons x xs =>
          by_cases hn : n = 0
          · rw [chunksOf, dif_pos hn] at hb
            simp at hb
          · rw [chunksOf, dif_neg hn] at hb
            rcases List.mem_cons.mp hb with hb | hb
            · subst hb
              simp [List.length_take]
            · exact ih ((x :: xs).drop n)
                (by simp only [List.length_drop]; simp at hl ⊢; omega) b hb

theorem mkRecords_length (items : List (String × PyVal)) (company hash : String) :
    ∀ (pairs : List (String × α)) (i0 : Nat),
      (mkRecords items company hash i0 pairs).length = pairs.length := by
  intro pairs
  induction pairs with
  | nil => intro i0; simp [mkRecords]
  | cons p rest ih => intro i0; simp [mkRecords, ih]

theorem mkRecords_mem_hash (items : List (String × PyVal)) (company hash : String) :
    ∀ (pairs : List (String × α)) (i0 : Nat) (r : VectorRecord α),
      r ∈ mkRecords items company hash i0 pairs → r.strategy_hash = hash := by
  intro pairs
  induction pairs with
  | nil => intro i0 r hr; simp [mkRecords] at hr
  | cons p rest ih =>
      intro i0 r hr
      rw [mkRecords] at hr
      rcases List.mem_cons.mp hr with hr | hr
      · subst hr; rfl
      · exact ih (i0 + 1) r hr

theorem mkRecords_zip_getElem (items : List (String × PyVal)) (company hash : String) :
    ∀ (chunks : List String) (vectors : List α) (i0 : Nat),
      chunks.length = vectors.length →
      ∀ (j : Nat) (t : String), chunks[j]? = some t →
        ∃ r, (mkRecords items company hash i0 (chunks.zip vectors))[j]? = some r ∧
          r.chunk_idx = i0 + j ∧ r.text = t := by
  intro chunks
  induction chunks with
  | nil =>
      intro vectors i0 hlen j t ht
      simp at ht
  | cons c cs ih =>
      intro vectors i0 hlen j t ht
      cases vectors with
      | nil => simp at hlen
      | cons v vs =>
          cases j with
          | zero =>
              simp at ht
              subst ht
              exact ⟨⟨items, company, hash, i0, c, v⟩, by simp [mkRecords, List.zip_cons_cons], by simp, rfl⟩
          | succ j =>
              simp only [List.getElem?_cons_succ] at ht
              obtain ⟨r, hr, hidx, htext⟩ := ih vs (i0 + 1) (by simpa using hlen) j t ht
              exact ⟨r, by simpa [mkRecords, List.zip_cons_cons] using hr, by omega, htext⟩

/-- Claim C3 counterexample: for the strategy
`{chunk_size: 100, embed_model: "m", method: "fixed_size", overlap: 20}`,
upserting the chunk list `["a"]` and upserting `["b"]` write the very same
`strategy_hash` into the payload — changing a chunk character does not
change the stored hash (the hashed serialization contains the strategy
items only) — although the chunks-inclusive serializations that
`ChunkFile.strategy_hash` would digest do differ. -/
theorem upsert_hash_ignores_chunks_counterexample :
    (upsertToCompanyCollection
        [("chunk_size", PyVal.int 100), ("embed_model", PyVal.str "m"),
         ("method", PyVal.str "fixed_size"), ("overlap", PyVal.int 20)]
        "acme" ["a"] [(1 : Nat)]).map (fun bs => bs.flatten.map fun r => r.strategy_hash) =
      (upsertToCompanyCollection
        [("chunk_size", PyVal.int 100), ("embed_model", PyVal.str "m"),
         ("method", PyVal.str "fixed_size"), ("overlap", PyVal.int 20)]
        "acme" ["b"] [(1 : Nat)]).map (fun bs => bs.flatten.map fun r => r.strategy_hash) ∧
    ("a" : String) ≠ "b" ∧
    chunkFileHashInput
        [("chunk_size", PyVal.int 100), ("embed_model", PyVal.str "m"),
         ("method", PyVal.str "fixed_size"), ("overlap", PyVal.int 20)] ["a"] ≠
      chunkFileHashInput
        [("chunk_size", PyVal.int 100), ("embed_model", PyVal.str "m"),
         ("method", PyVal.str "fixed_size"), ("overlap", PyVal.int 20)] ["b"] := by
  refine ⟨?_, by decide, by decide⟩
  simp [upsertToCompanyCollection, chunksOf, mkRecords, Except.map]

/-- Claim C3 (amended): every payload `strategy_hash` written by upsert is
the SHA-256 digest of `json.dumps(sorted(strategy.items()), sort_keys=True)`
— a serialization of the strategy parameters only, with Python's default
item separators; the chunk texts are not part of the digested data, so the
stored hash is independent of them (the chunks-inclusive digest is
`ChunkFile.strategy_hash`, which is not what upsert writes). -/
theorem upsert_payload_hash_spec {α : Type} (items : List (String × PyVal))
    (company : String) (chunks : List String) (vectors : List α)
    (batches : List (List (VectorRecord α)))
    (hok : upsertToCompanyCollection items company chunks vectors = Except.ok batches) :
    ∀ r ∈ batches.flatten, r.strategy_hash = sha256Hex (dumpSortedItems items) := by
  unfold upsertToCompanyCollection at hok
  by_cases hlen : chunks.length ≠ vectors.length
  · rw [if_pos hlen] at hok
    exact absurd hok (by simp)
  · rw [if_neg hlen] at hok
    have hb : batches = chunksOf 128
        (mkRecords items company (upsertStrategyHash items) 0 (chunks.zip vectors)) := by
      exact (Except.ok.injEq _ _).mp hok.symm
    intro r hr
    rw [hb, chunksOf_flatten 128 (by omega)] at hr
    exact mkRecords_mem_hash items company (upsertStrategyHash items)
      (chunks.zip vectors) 0 r hr

/-- Witness for the amended C3, at the single record upserted for the
one-chunk list `["a"]`. -/
theorem upsert_payload_hash_spec_witness :
    (⟨[("overlap", PyVal.int 1)], "acme", upsertStrategyHash [("overlap", PyVal.int 1)],
        0, "a", (1 : Nat)⟩ : VectorRecord Nat).strategy_hash =
      sha256Hex (dumpSortedItems [("overlap", PyVal.int 1)]) :=
  upsert_payload_hash_spec [("overlap", PyVal.int 1)] "acme" ["a"] [(1 : Nat)]
    (chunksOf 128 (mkRecords [("overlap", PyVal.int 1)] "acme"
      (upsertStrategyHash [("overlap", PyVal.int 1)]) 0 (["a"].zip [(1 : Nat)])))
    (by simp [upsertToCompanyCollection]) _
    (by simp [chunksOf, mkRecords])

/-- Claim C7: when the chunk and vector counts agree, upsert emits batches
of at most 128 records whose concatenation is exactly the record sequence
(one record per chunk, none lost or duplicated, whatever the batch
boundaries); the j-th record carries payload `chunk_idx = j` and the j-th
chunk's text; when the counts differ it raises before writing anything. -/
theorem upsert_spec {α : Type} (items : List (String × PyVal)) (company : String)
    (chunks : List String) (vectors : List α) :
    (chunks.length ≠ vectors.length →
      upsertToCompanyCollection items company chunks vectors =
        Except.error "Chunks count does not match vectors count.") ∧
    (chunks.length = vectors.length →
      ∃ batches, upsertToCompanyCollection items company chunks vectors = Except.ok batches ∧
        batches.flatten =
          mkRecords items company (upsertStrategyHash items) 0 (chunks.zip vectors) ∧
        batches.flatten.length = chunks.length ∧
        (∀ b ∈ batches, b.length ≤ 128) ∧
        (∀ (j : Nat) (t : String), chunks[j]? = some t →
          ∃ r, batches.flatten[j]? = some r ∧ r.chunk_idx = j ∧ r.text = t)) := by
  constructor
  · intro hne
    unfold upsertToCompanyCollection
    rw [if_pos hne]
  · intro hlen
    refine ⟨chunksOf 128
      (mkRecords items company (upsertStrategyHash items) 0 (chunks.zip vectors)),
      by unfold upsertToCompanyCollection; rw [if_neg (by omega)], ?_, ?_, ?_, ?_⟩
    · exact chunksOf_flatten 128 (by omega) _
    · rw [chunksOf_flatten 128 (by omega), mkRecords_length]
      simp [List.length_zip, hlen]
    · intro b hb
      exact mem_chunksOf_aux 128 _ _ le_rfl b hb
    · intro j t ht
      rw [chunksOf_flatten 128 (by omega)]
      simpa using mkRecords_zip_getElem items company (upsertStrategyHash items)
        chunks vectors 0 hlen j t ht

/-- Witness for C7, at two chunks and two vectors (equal counts) and at
mismatched counts. -/
theorem upsert_spec_witness :
    upsertToCompanyCollection [] "acme" ["a"] ([] : List Nat) =
      Except.error "Chunks count does not match vectors count." ∧
    ∃ batches, upsertToCompanyCollection [] "acme" ["a", "b"] [(10 : Nat), 20] =
        Except.ok batches ∧
      batches.flatten = mkRecords [] "acme" (upsertStrategyHash []) 0
        (["a", "b"].zip [(10 : Nat), 20]) ∧
      batches.flatten.length = (["a", "b"] : List String).length ∧
      (∀ b ∈ batches, b.length ≤ 128) ∧
      (∀ (j : Nat) (t : String), (["a", "b"] : List String)[j]? = some t →
        ∃ r, batches.flatten[j]? = some r ∧ r.chunk_idx = j ∧ r.text = t) :=
  ⟨(upsert_spec [] "acme" ["a"] ([] : List Nat)).1 (by decide),
   (upsert_spec [] "acme" ["a", "b"] [(10 : Nat), 20]).2 (by decide)⟩

/-! ## Purge-confirmation and retrieval theorems (C8, C9) -/

/-- Claim C8: with matching records present and the confirmation answer
not "yes" (after strip/lowercase), the check deletes nothing and returns
`False`, and the orchestrator performs no embedding and no upsert — the
store is unchanged; with no matching records, nothing is purged and
indexing proceeds. -/
theorem purge_confirmation_spec {α : Type} (store : List (VectorRecord α))
    (h response : String) (newRecords : List (VectorRecord α)) :
    (0 < countByHash store h →
      String.mk ((pyStrip response.toList).map Char.toLower) ≠ "yes" →
      checkAndHandleExistingPoints store h response = (store, false) ∧
      embedMain store h response newRecords = (store, false)) ∧
    (countByHash store h = 0 →
      checkAndHandleExistingPoints store h response = (store, true) ∧
      embedMain store h response newRecords = (store ++ newRecords, true)) := by
  constructor
  · intro hc hr
    have hcheck : checkAndHandleExistingPoints store h response = (store, false) := by
      unfold checkAndHandleExistingPoints
      rw [if_neg (by omega), if_neg hr]
    exact ⟨hcheck, by unfold embedMain; rw [hcheck]; simp⟩
  · intro hc
    have hcheck : checkAndHandleExistingPoints store h response = (store, true) := by
      unfold checkAndHandleExistingPoints
      rw [if_pos hc]
    exact ⟨hcheck, by unfold embedMain; rw [hcheck]; simp⟩

/-- Witness for C8: a store holding one record with the queried hash, the
answer `" NO "`, and a store with no matching record. -/
theorem purge_confirmation_spec_witness :
    (checkAndHandleExistingPoints [⟨[], "acme", "h1", 0, "t", (0 : Nat)⟩] "h1" " NO " =
        ([⟨[], "acme", "h1", 0, "t", 0⟩], false) ∧
      embedMain [⟨[], "acme", "h1", 0, "t", (0 : Nat)⟩] "h1" " NO "
          [⟨[], "acme", "h1", 1, "u", 7⟩] =
        ([⟨[], "acme", "h1", 0, "t", 0⟩], false)) ∧
    (checkAndHandleExistingPoints [⟨[], "acme", "h1", 0, "t", (0 : Nat)⟩] "h2" "yes" =
        ([⟨[], "acme", "h1", 0, "t", 0⟩], true) ∧
      embedMain [⟨[], "acme", "h1", 0, "t", (0 : Nat)⟩] "h2" "yes"
          [⟨[], "acme", "h2", 0, "u", 7⟩] =
        ([⟨[], "acme", "h1", 0, "t", 0⟩, ⟨[], "acme", "h2", 0, "u", 7⟩], true)) :=
  ⟨(purge_confirmation_spec [⟨[], "acme", "h1", 0, "t", (0 : Nat)⟩] "h1" " NO "
      [⟨[], "acme", "h1", 1, "u", 7⟩]).1 (by decide) (by decide),
   (purge_confirmation_spec [⟨[], "acme", "h1", 0, "t", (0 : Nat)⟩] "h2" "yes"
      [⟨[], "acme", "h2", 0, "u", 7⟩]).2 (by decide)⟩

/-- Claim C9 counterexample: querying a non-existent collection makes
Qdrant answer HTTP 404, and `retrieve_top_k_from_qdrant` then raises
(`raise_for_status`) instead of returning an empty sequence. -/
theorem retrieveTopK_missing_collection_counterexample :
    retrieveTopK 404 [] = Except.error "HTTPError" ∧
    retrieveTopK 404 [] ≠ Except.ok [] := by
  refine ⟨rfl, ?_⟩
  intro hcontra
  simp [retrieveTopK] at hcontra

/-- Claim C9 (amended): on a successful (non-error) search response,
`retrieveTopK` returns exactly the `text` payload of each hit in response
order (the store's descending-similarity order), and in particular the
empty sequence when zero records match; a non-existent collection yields
HTTP 404, which raises. -/
theorem retrieveTopK_spec (status : Nat) (hits : List SearchHit)
    (hok : status < 400) :
    retrieveTopK status hits = Except.ok (hits.map fun hit => hit.text) ∧
    retrieveTopK status [] = Except.ok [] := by
  constructor
  · unfold retrieveTopK
    rw [if_neg (by omega)]
  · unfold retrieveTopK
    rw [if_neg (by omega)]
    rfl

/-- Witness for the amended C9, at status 200 and one hit. -/
theorem retrieveTopK_spec_witness :
    retrieveTopK 200 [⟨"chunk text"⟩] =
      Except.ok (([⟨"chunk text"⟩] : List SearchHit).map fun hit => hit.text) ∧
    retrieveTopK 200 [] = Except.ok [] :=
  retrieveTopK_spec 200 [⟨"chunk text"⟩] (by decide)

end ReportAssistant
